import Mathlib

set_option maxHeartbeats 1000000

/-!
Shallow embedding of the scheduling simulator in `Spark_job_Schedule.py`.

Python dictionaries keyed by `App` (whose equality and hash are by `id`) are
embedded as insertion-ordered association lists `List (App × α)` in which
lookup, membership, update and deletion all compare keys by `id`, an update
of an existing key keeps the stored key object and the entry's position, and
insertion of a fresh key appends at the end — exactly Python dict semantics.
Exceptions (`KeyError`, `IndexError`, the `PriorityScheduler` lookup failure)
are embedded as `Option`: `none` means the Python code raises.
-/

structure App where
  id : Int
  duration : Int
  deadline : Int
deriving DecidableEq

/-- `App.nominalRate`: the Python constructor stores `Fraction(1, duration)`. -/
def App.nominalRate (a : App) : ℚ := 1 / (a.duration : ℚ)

abbrev RunMap := List (App × Int × ℚ)
abbrev EndMap := List (App × Int × Int)

/-- Python dict lookup `m[·]` / `· in m`, keys compared by `App.id`. -/
def dictLookup {α : Type} : List (App × α) → Int → Option (App × α)
  | [], _ => none
  | (k, v) :: rest, i => if k.id = i then some (k, v) else dictLookup rest i

/-- Python `app in m` (membership by id). -/
def dictContains {α : Type} (m : List (App × α)) (i : Int) : Bool :=
  (dictLookup m i).isSome

/-- Python `m[a] = v`: update in place keeping the stored key if present,
else append at the end. -/
def dictSet {α : Type} : List (App × α) → App → α → List (App × α)
  | [], a, v => [(a, v)]
  | (k, w) :: rest, a, v =>
    if k.id = a.id then (k, v) :: rest else (k, w) :: dictSet rest a v

/-- Python `del m[a]` (removes the unique entry with that id). -/
def dictErase {α : Type} : List (App × α) → Int → List (App × α)
  | [], _ => []
  | (k, v) :: rest, i => if k.id = i then rest else (k, v) :: dictErase rest i

/-- One-sided half of Python dict equality: every entry of `m1` has a
matching value in `m2`. -/
def dictValuesEqB {α : Type} [DecidableEq α] (m1 m2 : List (App × α)) : Bool :=
  m1.all (fun e => match dictLookup m2 e.1.id with
    | some p => decide (p.2 = e.2)
    | none => false)

/-- Python `d1 == d2` for dicts: same keys (by id) with equal values,
independently of insertion order. -/
def dictEqB {α : Type} [DecidableEq α] (m1 m2 : List (App × α)) : Bool :=
  dictValuesEqB m1 m2 && dictValuesEqB m2 m1

/-- Timeline state (`class Spark`): the `running` and `ended` dicts.  The
scheduler reference held by the Python object is threaded separately through
`Spark.tick`, since `__eq__`/`__hash__` ignore it. -/
structure Spark where
  running : RunMap
  ended : EndMap
deriving DecidableEq

/-- `Spark.__eq__`: `self.running == other.running and self.ended == other.ended`
(Python dict equality, insertion-order-insensitive). -/
def sparkEqB (s1 s2 : Spark) : Bool :=
  dictEqB s1.running s2.running && dictEqB s1.ended s2.ended

/-- The content rendered by `Spark.__repr__` (`"r:%s, e:%s"` over the two
dicts): dict reprs print entries in insertion order, so the repr string is an
injective image of these two insertion-ordered sequences.  `Spark.__hash__`
is `hash(self.__repr__())`, so two states receive equal hash keys exactly
when their `sparkRepr`s coincide (up to string-hash collision). -/
def sparkRepr (s : Spark) : List (Int × Int × ℚ) × List (Int × Int × Int) :=
  (s.running.map (fun e => (e.1.id, e.2)), s.ended.map (fun e => (e.1.id, e.2)))

/-- The nine scheduler variants.  `RoundRobin` carries its mutable cursor
`last_index`, `MultilevelFeedbackQueue` its mutable `queues` and `app_queue`,
so one value of this type is one snapshot of a Python scheduler object. -/
inductive Sched where
  | FIFO
  | Fair
  | EDFAll
  | EDFPure
  | RoundRobin (timeSlice : Int) (lastIndex : Int)
  | ShortestJobNext
  | LeastLaxityFirst
  | PriorityScheduler (priorities : List (App × Int))
  | MultilevelFeedbackQueue (numQueues : Nat) (timeSlices : List Int)
      (queues : List (List App)) (appQueue : List (App × Nat))
deriving DecidableEq

/-- Python `min(l, key=f)`: first element attaining the minimum (the fold
replaces the candidate only on strict decrease). -/
def pyArgmin {α β : Type} [LinearOrder β] (f : α → β) : List α → Option α
  | [] => none
  | x :: xs => some (xs.foldl (fun b a => if f a < f b then a else b) x)

/-- Python `max(l, key=f)`: first element attaining the maximum. -/
def pyArgmax {α β : Type} [LinearOrder β] (f : α → β) : List α → Option α
  | [] => none
  | x :: xs => some (xs.foldl (fun b a => if f b < f a then a else b) x)

/-- `running[app] = (running[app][0], running[app][1] + δ)` — the single
progress update every selecting policy performs; `none` is Python's
`KeyError` when `app` is not a key. -/
def bumpApp (r : RunMap) (a : App) (δ : ℚ) : Option RunMap :=
  match dictLookup r a.id with
  | none => none
  | some (_, sub, p) => some (dictSet r a (sub, p + δ))

/-- `self.priorities[app]` as used inside the `max` key function (callers
guard that the entry exists). -/
def priOf (ps : List (App × Int)) (a : App) : Int :=
  ((dictLookup ps a.id).map (fun e => e.2)).getD 0

/-- `list.remove(app)` guarded by `app in list` (removal of the first
element with the given id; no-op when absent). -/
def listRemoveFirst : List App → Int → List App
  | [], _ => []
  | a :: rest, i => if a.id = i then rest else a :: listRemoveFirst rest i

/-- MFQ phase 1: purge apps no longer in `running` from the queues and from
`app_queue`.  `none` models the `IndexError` when a recorded queue index is
out of range. -/
def mfqSync (r : RunMap) (queues : List (List App)) (appQueue : List (App × Nat)) :
    Option (List (List App) × List (App × Nat)) :=
  appQueue.foldlM
    (fun p e =>
      if dictContains r e.1.id then some p
      else match p.1.get? e.2 with
        | none => none
        | some q => some (p.1.set e.2 (listRemoveFirst q e.1.id), dictErase p.2 e.1.id))
    (queues, appQueue)

/-- MFQ phase 2: append apps newly in `running` to queue 0 and record them in
`app_queue`.  `none` models the `IndexError` when there is no queue 0. -/
def mfqAdd (r : RunMap) (queues : List (List App)) (appQueue : List (App × Nat)) :
    Option (List (List App) × List (App × Nat)) :=
  r.foldlM
    (fun p e =>
      if dictContains p.2 e.1.id then some p
      else match p.1.get? 0 with
        | none => none
        | some q0 => some (p.1.set 0 (q0 ++ [e.1]), dictSet p.2 e.1 0))
    (queues, appQueue)

/-- MFQ phase 3a: `for i in range(num_queues): if self.queues[i]: ... break`.
`some none` means the loop fell through with every queue empty. -/
def mfqFind (queues : List (List App)) : List Nat → Option (Option (Nat × App × List App))
  | [] => some none
  | i :: rest => match queues.get? i with
    | none => none
    | some [] => mfqFind queues rest
    | some (a :: q) => some (some (i, a, q))

/-- MFQ phase 3b: service the popped head `a` of queue `i` (whose remainder
is `q`), exactly as the body of the `if self.queues[i]:` block. -/
def mfqServe (n : Nat) (slices : List Int) (queues : List (List App))
    (aq : List (App × Nat)) (r : RunMap) (i : Nat) (a : App) (q : List App) :
    Option (Sched × RunMap) :=
  let queues1 := queues.set i q
  match dictLookup r a.id with
  | none => some (Sched.MultilevelFeedbackQueue n slices queues1 aq, r)
  | some (_, sub, p) =>
    match slices.get? i with
    | none => none
    | some ts =>
      let p1 := p + a.nominalRate * (ts : ℚ)
      let r1 := dictSet r a (sub, p1)
      if p1 < 1 then
        let nq := min (i + 1) (n - 1)
        match queues1.get? nq with
        | none => none
        | some qn =>
          some (Sched.MultilevelFeedbackQueue n slices (queues1.set nq (qn ++ [a]))
            (dictSet aq a nq), r1)
      else
        some (Sched.MultilevelFeedbackQueue n slices queues1 (dictErase aq a.id), r1)

/-- `addProgress(running, time)` of each concrete scheduler class, returning
the scheduler's post-call internal state together with the updated dict. -/
def Sched.addProgress (sch : Sched) (r : RunMap) (t : Int) : Option (Sched × RunMap) :=
  match sch with
  | .FIFO =>
    if r.isEmpty then some (sch, r) else
    match pyArgmin (fun e : App × Int × ℚ => e.2.1) r with
    | none => none
    | some e => (bumpApp r e.1 e.1.nominalRate).map (fun r1 => (sch, r1))
  | .Fair =>
    if r.isEmpty then some (sch, r) else
    some (sch, r.map (fun e => (e.1, e.2.1, e.2.2 + e.1.nominalRate / (r.length : ℚ))))
  | .EDFAll =>
    if r.isEmpty then some (sch, r) else
    some (sch, r.map (fun e => (e.1, e.2.1, e.2.2 + e.1.nominalRate)))
  | .EDFPure =>
    if r.isEmpty then some (sch, r) else
    match pyArgmin (fun e : App × Int × ℚ => e.1.deadline) r with
    | none => none
    | some e => (bumpApp r e.1 e.1.nominalRate).map (fun r1 => (sch, r1))
  | .RoundRobin ts li =>
    if r.isEmpty then some (sch, r) else
    let idx : Int := (li + 1) % (r.length : Int)
    match (r.map (fun e => e.1)).get? idx.toNat with
    | none => none
    | some a => (bumpApp r a (a.nominalRate * (ts : ℚ))).map
        (fun r1 => (Sched.RoundRobin ts idx, r1))
  | .ShortestJobNext =>
    if r.isEmpty then some (sch, r) else
    match pyArgmin (fun e : App × Int × ℚ => e.1.duration) r with
    | none => none
    | some e => (bumpApp r e.1 e.1.nominalRate).map (fun r1 => (sch, r1))
  | .LeastLaxityFirst =>
    if r.isEmpty then some (sch, r) else
    match pyArgmin (fun e : App × Int × ℚ => ((e.1.deadline - t : Int) : ℚ) - (1 - e.2.2)) r with
    | none => none
    | some e => (bumpApp r e.1 e.1.nominalRate).map (fun r1 => (sch, r1))
  | .PriorityScheduler ps =>
    if r.isEmpty then some (sch, r) else
    if r.all (fun e => dictContains ps e.1.id) then
      match pyArgmax (fun e : App × Int × ℚ => priOf ps e.1) r with
      | none => none
      | some e => (bumpApp r e.1 e.1.nominalRate).map (fun r1 => (sch, r1))
    else none
  | .MultilevelFeedbackQueue n slices queues aq =>
    if r.isEmpty then some (sch, r) else
    match mfqSync r queues aq with
    | none => none
    | some (q1, aq1) =>
      match mfqAdd r q1 aq1 with
      | none => none
      | some (q2, aq2) =>
        match mfqFind q2 (List.range n) with
        | none => none
        | some none => some (Sched.MultilevelFeedbackQueue n slices q2 aq2, r)
        | some (some (i, a, q)) => mfqServe n slices q2 aq2 r i a q

/-- `Spark.schedule(app, time)`. -/
def Spark.schedule (s : Spark) (app : App) (time : Int) : Spark :=
  if dictContains s.running app.id || dictContains s.ended app.id then s
  else if (s.running.map (fun e => e.1) ++ s.ended.map (fun e => e.1)).any
      (fun a => decide (a.id = app.id - 1)) then
    ⟨dictSet s.running app (time, 0), s.ended⟩
  else s

/-- `Spark.tick(time)`: copy, apply the (threaded) scheduler's `addProgress`,
promote jobs whose progress reached 1 into `ended` with `(sub, time)`,
then delete every app present in `ended` from the running copy. -/
def Spark.tick (sch : Sched) (s : Spark) (time : Int) : Option (Sched × Spark) :=
  if s.running.isEmpty then some (sch, s)
  else match sch.addProgress s.running time with
    | none => none
    | some (sch1, r1) =>
      let e1 := r1.foldl
        (fun m e => if (1 : ℚ) ≤ e.2.2 then dictSet m e.1 (e.2.1, time) else m) s.ended
      let r2 := e1.foldl
        (fun rr e => if dictContains rr e.1.id then dictErase rr e.1.id else rr) r1
      some (sch1, ⟨r2, e1⟩)

/-- `Spark.computeViolations(apps, steps)`. -/
def Spark.computeViolations (s : Spark) (apps : List App) (steps : Int) : Bool :=
  apps.any (fun app => match dictLookup s.ended app.id with
    | some (_, sub, fin) => decide (app.deadline < fin - sub)
    | none => false)

/-- `Spark.computeUnfeasibility(apps, steps)`. -/
def Spark.computeUnfeasibility (s : Spark) (apps : List App) (steps : Int) : Bool :=
  apps.any (fun app =>
    (!dictContains s.ended app.id && !dictContains s.running app.id) ||
    (match dictLookup s.running app.id with
     | some (_, sub, _) => decide (steps < sub + app.duration)
     | none => false))

/-- `Spark.computeScenarioViolations(apps, steps)`. -/
def Spark.computeScenarioViolations (s : Spark) (apps : List App) (steps : Int) : Bool :=
  if s.computeViolations apps steps || s.computeUnfeasibility apps steps then false
  else apps.any (fun app =>
    !dictContains s.ended app.id &&
    (match dictLookup s.running app.id with
     | some (_, sub, _) => decide (sub + app.duration ≤ steps)
     | none => false))

/-- `Spark.computeNonViolations(apps, steps)`. -/
def Spark.computeNonViolations (s : Spark) (apps : List App) (steps : Int) : Bool :=
  !s.computeViolations apps steps && !s.computeScenarioViolations apps steps &&
    !s.computeUnfeasibility apps steps

/-- Insertion into the state set; membership uses full structural equality.
(In every state the exploration produces, dict insertion order is a function
of the dict contents, so this coincides with Python's `set` behaviour.) -/
def setInsert (xs : List Spark) (x : Spark) : List Spark :=
  if x ∈ xs then xs else xs ++ [x]

/-- Python `A | B` on state sets. -/
def setUnion (xs ys : List Spark) : List Spark :=
  ys.foldl setInsert xs

/-- `nextStates(apps, state, time)`: branch over arrive / not-arrive for each
remaining app, in list order. -/
def nextStates (apps : List App) (s : Spark) (t : Int) : List Spark :=
  match apps with
  | [] => [s]
  | a :: rest => setUnion (nextStates rest (s.schedule a t) t) (nextStates rest s t)

/-- The inner loop of one `simulate` step: `for state in states:
newStates |= nextStates(apps, state.tick(t), t)`, threading the shared
scheduler object through the successive `tick` calls. -/
def simTickAux (apps : List App) (t : Int) :
    Sched → List Spark → List Spark → Option (Sched × List Spark)
  | sch, acc, [] => some (sch, acc)
  | sch, acc, st :: rest =>
    match Spark.tick sch st t with
    | none => none
    | some (sch1, st1) => simTickAux apps t sch1 (setUnion acc (nextStates apps st1 t)) rest

/-- `simulate(initial, apps, steps)`: iterate the tick/branch step for
`t in range(0, steps + 1)`. -/
def simulate (sch : Sched) (initial : Spark) (apps : List App) (steps : Nat) :
    Option (Sched × List Spark) :=
  (List.range (steps + 1)).foldlM (fun p t => simTickAux apps (Int.ofNat t) p.1 [] p.2)
    (sch, [initial])

/-- Presence of an id in a state (running or ended), the notion used by the
dependency-order invariant. -/
def presentB (s : Spark) (i : Int) : Bool :=
  dictContains s.running i || dictContains s.ended i

/-- The dependency-order invariant: every present id greater than 1 has its
predecessor id present in the same state. -/
def depInvP (s : Spark) : Prop :=
  ∀ i : Int, presentB s i = true → 1 < i → presentB s (i - 1) = true

/-- Well-formedness of a scheduler's parameters as assumed by the progress
monotonicity claim: non-negative time slices, and apps recorded inside the
MFQ queues have positive duration (as every job of the data model does). -/
def Sched.paramsOK : Sched → Prop
  | .RoundRobin ts _ => 0 ≤ ts
  | .MultilevelFeedbackQueue _ slices queues _ =>
      (∀ x ∈ slices, 0 ≤ x) ∧ (∀ q ∈ queues, ∀ a ∈ q, 0 < a.duration)
  | _ => True

/-- Entrywise relation between a running dict before and after one
`addProgress` call: same key, same submission time, progress not decreased. -/
def entryLe (e e1 : App × Int × ℚ) : Prop :=
  e1.1 = e.1 ∧ e1.2.1 = e.2.1 ∧ e.2.2 ≤ e1.2.2

/-- The unconditional part of `entryLe`: `addProgress` never changes an
entry's key or submission time (it only rewrites progress values). -/
def entryFrame (e e1 : App × Int × ℚ) : Prop :=
  e1.1 = e.1 ∧ e1.2.1 = e.2.1

/-- Scenario A's job: `id=1, duration=2, deadline=2`. -/
def jobA : App := ⟨1, 2, 2⟩

/-- Scenario B's first job: `id=1, duration=1, deadline=1`. -/
def jobB1 : App := ⟨1, 1, 1⟩

/-- Scenario B's second job: `id=2, duration=1, deadline=1`. -/
def jobB2 : App := ⟨2, 1, 1⟩

/-! ## Basic lemmas about the dict embedding and state sets -/

theorem mem_setInsert_iff (xs : List Spark) (x y : Spark) :
    y ∈ setInsert xs x ↔ y ∈ xs ∨ y = x := by
  unfold setInsert
  by_cases h : x ∈ xs
  · simp only [if_pos h]
    constructor
    · exact Or.inl
    · rintro (hy | rfl)
      · exact hy
      · exact h
  · simp only [if_neg h, List.mem_append, List.mem_singleton]

theorem mem_setUnion_iff (xs ys : List Spark) (y : Spark) :
    y ∈ setUnion xs ys ↔ y ∈ xs ∨ y ∈ ys := by
  induction ys generalizing xs with
  | nil => simp [setUnion]
  | cons z zs ih =>
    show y ∈ setUnion (setInsert xs z) zs ↔ _
    rw [ih, mem_setInsert_iff]
    simp only [List.mem_cons]
    tauto

theorem setUnion_ne_nil (xs ys : List Spark) (h : xs ≠ [] ∨ ys ≠ []) :
    setUnion xs ys ≠ [] := by
  rcases h with h | h
  · rcases List.exists_mem_of_ne_nil xs h with ⟨a, ha⟩
    exact List.ne_nil_of_mem ((mem_setUnion_iff xs ys a).mpr (Or.inl ha))
  · rcases List.exists_mem_of_ne_nil ys h with ⟨a, ha⟩
    exact List.ne_nil_of_mem ((mem_setUnion_iff xs ys a).mpr (Or.inr ha))

theorem self_mem_nextStates (apps : List App) (s : Spark) (t : Int) :
    s ∈ nextStates apps s t := by
  induction apps generalizing s with
  | nil => simp [nextStates]
  | cons a rest ih =>
    show s ∈ setUnion (nextStates rest (s.schedule a t) t) (nextStates rest s t)
    exact (mem_setUnion_iff _ _ s).mpr (Or.inr (ih s))

theorem simTickAux_ne_nil (apps : List App) (t : Int) :
    ∀ (states : List Spark) (sch : Sched) (acc : List Spark) (sch1 : Sched)
      (out : List Spark), simTickAux apps t sch acc states = some (sch1, out) →
      (acc ≠ [] ∨ states ≠ []) → out ≠ [] := by
  intro states
  induction states with
  | nil =>
    intro sch acc sch1 out h hne
    simp only [simTickAux] at h
    cases h
    rcases hne with h | h
    · exact h
    · exact absurd rfl h
  | cons st rest ih =>
    intro sch acc sch1 out h _
    simp only [simTickAux] at h
    cases htick : Spark.tick sch st t with
    | none => rw [htick] at h; cases h
    | some p =>
      rw [htick] at h
      refine ih p.1 _ sch1 out h (Or.inl ?_)
      refine setUnion_ne_nil _ _ (Or.inr ?_)
      exact List.ne_nil_of_mem (self_mem_nextStates apps p.2 t)

theorem foldlM_option_invariant {σ β : Type} (step : σ → β → Option σ) (P : σ → Prop)
    (hstep : ∀ s b s1, P s → step s b = some s1 → P s1) :
    ∀ (l : List β) (s s1 : σ), P s → l.foldlM step s = some s1 → P s1 := by
  intro l
  induction l with
  | nil =>
    intro s s1 hs h
    simp only [List.foldlM] at h
    cases h
    exact hs
  | cons b bs ih =>
    intro s s1 hs h
    simp only [List.foldlM] at h
    cases hb : step s b with
    | none => rw [hb] at h; cases h
    | some s2 =>
      rw [hb] at h
      exact ih s2 s1 (hstep s b s2 hs hb) h

theorem simulate_states_ne_nil (sch : Sched) (init : Spark) (apps : List App)
    (steps : Nat) (sch1 : Sched) (states : List Spark)
    (h : simulate sch init apps steps = some (sch1, states)) : states ≠ [] := by
  have key := foldlM_option_invariant
    (fun (p : Sched × List Spark) t => simTickAux apps (Int.ofNat t) p.1 [] p.2)
    (fun p => p.2 ≠ []) ?_ (List.range (steps + 1)) (sch, [init]) (sch1, states) ?_ h
  · exact key
  · intro p b p1 hp hstep
    exact simTickAux_ne_nil apps (Int.ofNat b) p.2 p.1 [] p1.1 p1.2 hstep (Or.inr hp)
  · intro hcontra
    cases hcontra

/-! ## Claim theorems: exploration scenarios, dedup hashing, classifiers -/

/-- C1 (counterexample): the claim says that `schedule(job1, t)` applied to a
state in which job 1 is absent adds job 1 to `running` at `(t, 0)`.  On the
empty state this is false: `schedule` looks for a present app with id
`1 - 1 = 0`, finds none, and returns the state unchanged, so job 1 is not
added. -/
theorem schedule_job1_empty_counterexample :
    Spark.schedule ⟨[], []⟩ jobB1 0 = ⟨[], []⟩ ∧
    dictContains (Spark.schedule ⟨[], []⟩ jobB1 0).running jobB1.id = false := by
  constructor
  · rfl
  · rfl

/-- C1 (amended): `schedule(job, t)` adds job 1 only when some present app
has id 0, so with no seed job 1 never arrives: for every time `t`,
`schedule(job1, t)` of the empty state is the empty state, and the no-seed
exploration of scenario B (two unit jobs, horizon `steps = 2`, policy Fair)
terminates with the singleton set containing only the empty state. -/
theorem schedule_job1_requires_seed :
    (∀ t : Int, Spark.schedule ⟨[], []⟩ jobB1 t = ⟨[], []⟩) ∧
    simulate Sched.Fair ⟨[], []⟩ [jobB1, jobB2] 2 = some (Sched.Fair, [⟨[], []⟩]) := by
  exact ⟨fun t => rfl, by with_unfolding_all decide⟩

/-- C2 (counterexample): the claim says the scenario-A terminal state set
consists of states whose ended mapping is `{job1 ↦ (1, 3)}`.  The code's
terminal set is the single state with ended mapping `{job1 ↦ (1, 1)}`:
`tick` advances the seeded job at `t = 0` and `t = 1` regardless of its
submission time `1`, so it finishes at time 1, not 3. -/
theorem simulate_scenarioA_counterexample :
    simulate Sched.FIFO ⟨[(jobA, (1, 0))], []⟩ [jobA] 3
      = some (Sched.FIFO, [⟨[], [(jobA, (1, 1))]⟩]) ∧
    dictLookup (Spark.mk [] [(jobA, (1, 1))]).ended jobA.id ≠ some (jobA, (1, 3)) := by
  constructor
  · with_unfolding_all decide
  · decide

/-- C2 (amended): for one job (`id=1, duration=2, deadline=2`), horizon
`steps = 3`, policy FIFO, seeded already running at `t = 1`, the terminal
state set is exactly the one state whose ended mapping is
`{job1 ↦ (1, 1)}` (full-rate ticks at `t = 0` and `t = 1` drive progress to
1 at time 1), and it has zero deadline violations. -/
theorem simulate_scenarioA :
    simulate Sched.FIFO ⟨[(jobA, (1, 0))], []⟩ [jobA] 3
      = some (Sched.FIFO, [⟨[], [(jobA, (1, 1))]⟩]) ∧
    Spark.computeViolations ⟨[], [(jobA, (1, 1))]⟩ [jobA] 3 = false := by
  constructor
  · with_unfolding_all decide
  · decide

/-- C3 (code bug): `Spark.__eq__` compares the `running`/`ended` dicts
order-insensitively, but `Spark.__hash__` hashes the order-dependent repr
string.  The two states below are equal under `__eq__` yet have different
reprs, so they are not guaranteed equal hash values, violating the
hash/equality contract that set deduplication relies on. -/
theorem spark_hash_inconsistent_with_eq :
    sparkEqB (Spark.mk [(jobB1, (0, 0)), (jobB2, (0, 0))] [])
        (Spark.mk [(jobB2, (0, 0)), (jobB1, (0, 0))] []) = true ∧
    sparkRepr (Spark.mk [(jobB1, (0, 0)), (jobB2, (0, 0))] [])
      ≠ sparkRepr (Spark.mk [(jobB2, (0, 0)), (jobB1, (0, 0))] []) := by
  constructor
  · decide
  · decide

/-- C9: `computeNonViolations` is true exactly when `computeViolations`,
`computeScenarioViolations` and `computeUnfeasibility` are all false, and
`computeScenarioViolations` is false whenever `computeViolations` or
`computeUnfeasibility` is true. -/
theorem classifier_consistency (s : Spark) (apps : List App) (steps : Int) :
    (s.computeNonViolations apps steps = true ↔
      (s.computeViolations apps steps = false ∧
        s.computeScenarioViolations apps steps = false ∧
        s.computeUnfeasibility apps steps = false)) ∧
    ((s.computeViolations apps steps = true ∨ s.computeUnfeasibility apps steps = true) →
      s.computeScenarioViolations apps steps = false) := by
  constructor
  · simp [Spark.computeNonViolations, and_assoc]
  · intro h
    rcases h with h | h <;> simp [Spark.computeScenarioViolations, h]

/-- C9 (witness): the empty state with a non-empty job list is unfeasible,
so by the consistency theorem its scenario-violation flag is false. -/
theorem classifier_consistency_witness :
    Spark.computeScenarioViolations ⟨[], []⟩ [jobA] 3 = false :=
  (classifier_consistency ⟨[], []⟩ [jobA] 3).2 (Or.inr (by decide))

/-- C10: `nextStates(apps, s, t)` always contains `s` itself (the branch in
which no job arrives), and whenever `simulate` returns, its terminal state
set is non-empty, so the per-state divisions by the state-set size in the
metrics aggregation divide by a positive count. -/
theorem nextStates_contains_input_and_simulate_nonempty :
    (∀ (apps : List App) (s : Spark) (t : Int), s ∈ nextStates apps s t) ∧
    (∀ (sch : Sched) (init : Spark) (apps : List App) (steps : Nat) (sch1 : Sched)
      (states : List Spark), simulate sch init apps steps = some (sch1, states) →
      0 < states.length) := by
  constructor
  · exact self_mem_nextStates
  · intro sch init apps steps sch1 states h
    exact List.length_pos.mpr (simulate_states_ne_nil sch init apps steps sch1 states h)

/-- C10 (witness): instantiation at the empty state, the empty job list and
horizon 0. -/
theorem nextStates_contains_input_and_simulate_nonempty_witness :
    (Spark.mk [] [] ∈ nextStates [jobB1] ⟨[], []⟩ 0) ∧
    0 < ([Spark.mk [] []] : List Spark).length := by
  constructor
  · exact nextStates_contains_input_and_simulate_nonempty.1 [jobB1] ⟨[], []⟩ 0
  · exact nextStates_contains_input_and_simulate_nonempty.2 Sched.FIFO ⟨[], []⟩ [] 0
      Sched.FIFO [⟨[], []⟩] (by decide)

/-! ## Lookup/update lemmas and argmin/argmax lemmas -/

theorem dictContains_eq_false_iff {α : Type} (m : List (App × α)) (i : Int) :
    dictContains m i = false ↔ dictLookup m i = none := by
  unfold dictContains
  cases dictLookup m i <;> simp

theorem dictContains_eq_true_iff {α : Type} (m : List (App × α)) (i : Int) :
    dictContains m i = true ↔ ∃ e ∈ m, e.1.id = i := by
  induction m with
  | nil => simp [dictContains, dictLookup]
  | cons x xs ih =>
    by_cases hx : x.1.id = i
    · simp only [dictContains, dictLookup]
      rw [if_pos hx]
      simp only [Option.isSome_some, true_iff]
      exact ⟨x, List.mem_cons_self x xs, hx⟩
    · simp only [dictContains, dictLookup]
      rw [if_neg hx]
      rw [show (dictLookup xs i).isSome = dictContains xs i from rfl, ih]
      constructor
      · rintro ⟨e, he, hei⟩
        exact ⟨e, List.mem_cons_of_mem x he, hei⟩
      · rintro ⟨e, he, hei⟩
        rcases List.mem_cons.mp he with rfl | he
        · exact absurd hei hx
        · exact ⟨e, he, hei⟩

theorem dictSet_eq_append {α : Type} (m : List (App × α)) (a : App) (v : α)
    (h : dictContains m a.id = false) : dictSet m a v = m ++ [(a, v)] := by
  induction m with
  | nil => rfl
  | cons x xs ih =>
    rw [dictContains_eq_false_iff] at h
    simp only [dictLookup] at h
    by_cases hx : x.1.id = a.id
    · rw [if_pos hx] at h; cases h
    · rw [if_neg hx] at h
      simp only [dictSet]
      rw [if_neg hx, ih ((dictContains_eq_false_iff xs a.id).mpr h), List.cons_append]

theorem dictLookup_append_right {α : Type} (m : List (App × α)) (a : App) (v : α)
    (h : dictContains m a.id = false) : dictLookup (m ++ [(a, v)]) a.id = some (a, v) := by
  induction m with
  | nil => simp [dictLookup]
  | cons x xs ih =>
    rw [dictContains_eq_false_iff] at h
    simp only [dictLookup] at h
    by_cases hx : x.1.id = a.id
    · rw [if_pos hx] at h; cases h
    · rw [if_neg hx] at h
      simp only [List.cons_append, dictLookup]
      rw [if_neg hx]
      exact ih ((dictContains_eq_false_iff xs a.id).mpr h)

theorem dictLookup_append_ne {α : Type} (m : List (App × α)) (a : App) (v : α)
    (i : Int) (h : i ≠ a.id) : dictLookup (m ++ [(a, v)]) i = dictLookup m i := by
  induction m with
  | nil =>
    simp only [List.nil_append, dictLookup]
    rw [if_neg (fun hc => h hc.symm)]
  | cons x xs ih =>
    simp only [List.cons_append, dictLookup]
    by_cases hx : x.1.id = i
    · rw [if_pos hx, if_pos hx]
    · rw [if_neg hx, if_neg hx]
      exact ih

theorem isEmpty_false_of_ne_nil {α : Type} (l : List α) (h : l ≠ []) :
    l.isEmpty = false := by
  cases l with
  | nil => exact absurd rfl h
  | cons a as => rfl

theorem foldl_choice_mem {α : Type} (step : α → α → α)
    (hstep : ∀ b a, step b a = a ∨ step b a = b) :
    ∀ (l : List α) (b : α), l.foldl step b ∈ b :: l := by
  intro l
  induction l with
  | nil => intro b; simp
  | cons c cs ih =>
    intro b
    simp only [List.foldl_cons]
    rcases List.mem_cons.mp (ih (step b c)) with h | h
    · rw [h]
      rcases hstep b c with h1 | h1 <;> rw [h1] <;> simp
    · exact List.mem_cons.mpr (Or.inr (List.mem_cons.mpr (Or.inr h)))

theorem foldl_max_ge {α β : Type} [LinearOrder β] (f : α → β) :
    ∀ (l : List α) (b : α),
      f b ≤ f (l.foldl (fun b a => if f b < f a then a else b) b) ∧
      ∀ y ∈ l, f y ≤ f (l.foldl (fun b a => if f b < f a then a else b) b) := by
  intro l
  induction l with
  | nil =>
    intro b
    exact ⟨le_refl _, by intro y hy; cases hy⟩
  | cons c cs ih =>
    intro b
    simp only [List.foldl_cons]
    obtain ⟨h1, h2⟩ := ih (if f b < f c then c else b)
    have hb : f b ≤ f (if f b < f c then c else b) := by
      by_cases hc : f b < f c
      · rw [if_pos hc]; exact le_of_lt hc
      · rw [if_neg hc]
    have hcle : f c ≤ f (if f b < f c then c else b) := by
      by_cases hc : f b < f c
      · rw [if_pos hc]
      · rw [if_neg hc]; exact le_of_not_lt hc
    refine ⟨le_trans hb h1, ?_⟩
    intro y hy
    rcases List.mem_cons.mp hy with rfl | hy
    · exact le_trans hcle h1
    · exact h2 y hy

theorem pyArgmax_spec {α β : Type} [LinearOrder β] (f : α → β) (l : List α) (x : α)
    (h : pyArgmax f l = some x) : x ∈ l ∧ ∀ y ∈ l, f y ≤ f x := by
  cases l with
  | nil => cases h
  | cons c cs =>
    simp only [pyArgmax, Option.some.injEq] at h
    subst h
    constructor
    · refine foldl_choice_mem _ ?_ cs c
      intro b a
      by_cases hc : f b < f a
      · exact Or.inl (if_pos hc)
      · exact Or.inr (if_neg hc)
    · intro y hy
      rcases List.mem_cons.mp hy with rfl | hy
      · exact (foldl_max_ge f cs y).1
      · exact (foldl_max_ge f cs c).2 y hy

theorem pyArgmin_mem {α β : Type} [LinearOrder β] (f : α → β) (l : List α) (x : α)
    (h : pyArgmin f l = some x) : x ∈ l := by
  cases l with
  | nil => cases h
  | cons c cs =>
    simp only [pyArgmin, Option.some.injEq] at h
    subst h
    refine foldl_choice_mem _ ?_ cs c
    intro b a
    by_cases hc : f a < f b
    · exact Or.inl (if_pos hc)
    · exact Or.inr (if_neg hc)

theorem dictLookup_of_mem_nodup {α : Type} (m : List (App × α)) (e : App × α)
    (hm : e ∈ m) (hn : (m.map (fun x => x.1.id)).Nodup) :
    dictLookup m e.1.id = some e := by
  induction m with
  | nil => cases hm
  | cons x xs ih =>
    rw [List.map_cons, List.nodup_cons] at hn
    rcases List.mem_cons.mp hm with rfl | hm
    · simp [dictLookup]
    · have hne : x.1.id ≠ e.1.id := by
        intro hcontra
        exact hn.1 (hcontra ▸ List.mem_map_of_mem (fun x => x.1.id) hm)
      rw [dictLookup, if_neg hne]
      exact ih hm hn.2

/-! ## Claim theorems: schedule characterization, PriorityScheduler -/

/-- C5: `schedule(j, t)` is the identity when `j` is already present in
`running` or `ended`, and when the predecessor id `j.id - 1` is absent from
both; otherwise it leaves `ended` unchanged and adds exactly the entry
`j ↦ (t, 0)` to `running`, leaving every other id's lookup unchanged. -/
theorem schedule_spec (s : Spark) (j : App) (t : Int) :
    ((dictContains s.running j.id || dictContains s.ended j.id) = true →
      s.schedule j t = s) ∧
    ((dictContains s.running j.id || dictContains s.ended j.id) = false →
      (∀ a ∈ s.running.map (fun e => e.1) ++ s.ended.map (fun e => e.1),
        a.id ≠ j.id - 1) →
      s.schedule j t = s) ∧
    ((dictContains s.running j.id || dictContains s.ended j.id) = false →
      (∃ a ∈ s.running.map (fun e => e.1) ++ s.ended.map (fun e => e.1),
        a.id = j.id - 1) →
      (s.schedule j t).ended = s.ended ∧
      dictLookup (s.schedule j t).running j.id = some (j, (t, 0)) ∧
      (∀ i : Int, i ≠ j.id →
        dictLookup (s.schedule j t).running i = dictLookup s.running i)) := by
  refine ⟨?_, ?_, ?_⟩
  · intro h
    simp [Spark.schedule, h]
  · intro h hall
    have hany : (s.running.map (fun e => e.1) ++ s.ended.map (fun e => e.1)).any
        (fun a => decide (a.id = j.id - 1)) = false := by
      rw [List.any_eq_false]
      intro a ha
      simp only [decide_eq_true_eq]
      exact hall a ha
    simp [Spark.schedule, h, hany]
  · intro h hex
    have hany : (s.running.map (fun e => e.1) ++ s.ended.map (fun e => e.1)).any
        (fun a => decide (a.id = j.id - 1)) = true := by
      rw [List.any_eq_true]
      rcases hex with ⟨a, ha, hid⟩
      exact ⟨a, ha, by simpa using hid⟩
    have hrun : dictContains s.running j.id = false := by
      rcases Bool.or_eq_false_iff.mp h with ⟨h1, _⟩
      exact h1
    have hsch : s.schedule j t = ⟨dictSet s.running j (t, 0), s.ended⟩ := by
      simp [Spark.schedule, h, hany]
    rw [hsch]
    refine ⟨rfl, ?_, ?_⟩
    · rw [dictSet_eq_append s.running j (t, 0) hrun]
      exact dictLookup_append_right s.running j (t, 0) hrun
    · intro i hi
      rw [dictSet_eq_append s.running j (t, 0) hrun]
      exact dictLookup_append_ne s.running j (t, 0) i hi

/-- C5 (witness): scheduling job 2 into a state where job 1 is running adds
the entry `job2 ↦ (1, 0)` and leaves `ended` unchanged. -/
theorem schedule_spec_witness :
    (Spark.schedule ⟨[(jobB1, (0, 0))], []⟩ jobB2 1).ended = [] ∧
    dictLookup (Spark.schedule ⟨[(jobB1, (0, 0))], []⟩ jobB2 1).running jobB2.id
      = some (jobB2, (1, 0)) := by
  have h := (schedule_spec ⟨[(jobB1, (0, 0))], []⟩ jobB2 1).2.2 (by decide)
    ⟨jobB1, by decide, by decide⟩
  exact ⟨h.1, h.2.1⟩

/-- C8: on a non-empty running dict containing a job with no entry in the
priority table, `PriorityScheduler.addProgress` raises the lookup error
(returns `none`); with all entries present, it selects a running job of
maximum priority and gives exactly it a full nominal-rate increment. -/
theorem priority_scheduler_spec (ps : List (App × Int)) (r : RunMap) (t : Int)
    (hnodup : (r.map (fun e => e.1.id)).Nodup) :
    (r ≠ [] → (∃ e ∈ r, dictContains ps e.1.id = false) →
      Sched.addProgress (Sched.PriorityScheduler ps) r t = none) ∧
    (r ≠ [] → (∀ e ∈ r, dictContains ps e.1.id = true) →
      ∃ sel ∈ r, (∀ e ∈ r, priOf ps e.1 ≤ priOf ps sel.1) ∧
        Sched.addProgress (Sched.PriorityScheduler ps) r t
          = some (Sched.PriorityScheduler ps,
              dictSet r sel.1 (sel.2.1, sel.2.2 + sel.1.nominalRate))) := by
  constructor
  · intro hne hex
    have hie : r.isEmpty = false := isEmpty_false_of_ne_nil r hne
    have hall : (r.all (fun e => dictContains ps e.1.id)) = false := by
      rw [List.all_eq_false]
      rcases hex with ⟨e, he, hce⟩
      exact ⟨e, he, by simp [hce]⟩
    simp [Sched.addProgress, hie, hall]
  · intro hne hall
    have hie : r.isEmpty = false := isEmpty_false_of_ne_nil r hne
    have hallb : (r.all (fun e => dictContains ps e.1.id)) = true := by
      rw [List.all_eq_true]
      exact hall
    obtain ⟨x, xs, rfl⟩ : ∃ x xs, r = x :: xs := by
      cases r with
      | nil => exact absurd rfl hne
      | cons x xs => exact ⟨x, xs, rfl⟩
    obtain ⟨sel, hsel⟩ :
        ∃ sel, pyArgmax (fun e : App × Int × ℚ => priOf ps e.1) (x :: xs) = some sel :=
      ⟨_, rfl⟩
    obtain ⟨hmem, hge⟩ := pyArgmax_spec _ _ _ hsel
    have hlook : dictLookup (x :: xs) sel.1.id = some sel :=
      dictLookup_of_mem_nodup _ _ hmem hnodup
    refine ⟨sel, hmem, hge, ?_⟩
    obtain ⟨sa, ssub, sp⟩ := sel
    simp only [Sched.addProgress, hie, Bool.false_eq_true, if_false, hallb, if_true, hsel]
    simp [bumpApp, hlook]

/-- C8 (witness): a priority table with no entry for the single running job
makes `addProgress` raise (return `none`). -/
theorem priority_scheduler_spec_witness :
    Sched.addProgress (Sched.PriorityScheduler []) [(jobB1, (0, 0))] 0 = none :=
  (priority_scheduler_spec [] [(jobB1, (0, 0))] 0 (by decide)).1 (by decide)
    ⟨(jobB1, (0, 0)), by decide, by decide⟩

/-! ## Frame and monotonicity machinery for addProgress -/

theorem dictLookup_mem {α : Type} (m : List (App × α)) (i : Int) (e : App × α)
    (h : dictLookup m i = some e) : e ∈ m ∧ e.1.id = i := by
  induction m with
  | nil => cases h
  | cons x xs ih =>
    simp only [dictLookup] at h
    by_cases hx : x.1.id = i
    · rw [if_pos hx] at h
      cases h
      exact ⟨List.mem_cons_self _ _, hx⟩
    · rw [if_neg hx] at h
      obtain ⟨hm, hi⟩ := ih h
      exact ⟨List.mem_cons_of_mem _ hm, hi⟩

theorem forall2_entryLe_refl (r : RunMap) : List.Forall₂ entryLe r r := by
  induction r with
  | nil => exact List.Forall₂.nil
  | cons x xs ih => exact List.Forall₂.cons ⟨rfl, rfl, le_refl _⟩ ih

theorem forall2_entryFrame_refl (r : RunMap) : List.Forall₂ entryFrame r r := by
  induction r with
  | nil => exact List.Forall₂.nil
  | cons x xs ih => exact List.Forall₂.cons ⟨rfl, rfl⟩ ih

theorem forall2_entryLe_map (r : RunMap) (g : App × Int × ℚ → App × Int × ℚ)
    (hg : ∀ e ∈ r, entryLe e (g e)) : List.Forall₂ entryLe r (r.map g) := by
  induction r with
  | nil => exact List.Forall₂.nil
  | cons x xs ih =>
    exact List.Forall₂.cons (hg x (List.mem_cons_self x xs))
      (ih (fun e he => hg e (List.mem_cons_of_mem x he)))

theorem forall2_entryFrame_map (r : RunMap) (g : App × Int × ℚ → App × Int × ℚ)
    (hg : ∀ e ∈ r, entryFrame e (g e)) : List.Forall₂ entryFrame r (r.map g) := by
  induction r with
  | nil => exact List.Forall₂.nil
  | cons x xs ih =>
    exact List.Forall₂.cons (hg x (List.mem_cons_self x xs))
      (ih (fun e he => hg e (List.mem_cons_of_mem x he)))

theorem dictSet_entryFrame (r : RunMap) (a k : App) (sub : Int) (p q : ℚ)
    (h : dictLookup r a.id = some (k, sub, p)) :
    List.Forall₂ entryFrame r (dictSet r a (sub, q)) := by
  induction r with
  | nil => cases h
  | cons x xs ih =>
    simp only [dictLookup] at h
    simp only [dictSet]
    by_cases hx : x.1.id = a.id
    · rw [if_pos hx] at h
      rw [if_pos hx]
      have hx2 : x.1 = k ∧ x.2.1 = sub ∧ x.2.2 = p := by
        have h2 := Option.some.inj h
        simpa [Prod.ext_iff] using h2
      exact List.Forall₂.cons ⟨rfl, hx2.2.1.symm⟩ (forall2_entryFrame_refl xs)
    · rw [if_neg hx] at h
      rw [if_neg hx]
      exact List.Forall₂.cons ⟨rfl, rfl⟩ (ih h)

theorem dictSet_entryLe (r : RunMap) (a k : App) (sub : Int) (p δ : ℚ)
    (hδ : 0 ≤ δ) (h : dictLookup r a.id = some (k, sub, p)) :
    List.Forall₂ entryLe r (dictSet r a (sub, p + δ)) := by
  induction r with
  | nil => cases h
  | cons x xs ih =>
    simp only [dictLookup] at h
    simp only [dictSet]
    by_cases hx : x.1.id = a.id
    · rw [if_pos hx] at h
      rw [if_pos hx]
      have hx23 : x.1 = k ∧ x.2.1 = sub ∧ x.2.2 = p := by
        have h2 := Option.some.inj h
        simpa [Prod.ext_iff] using h2
      refine List.Forall₂.cons ⟨rfl, hx23.2.1.symm, ?_⟩ (forall2_entryLe_refl xs)
      rw [hx23.2.2]
      exact le_add_of_nonneg_right hδ
    · rw [if_neg hx] at h
      rw [if_neg hx]
      exact List.Forall₂.cons ⟨rfl, rfl, le_refl _⟩ (ih h)

theorem bumpApp_frame_mono (r : RunMap) (a : App) (δ : ℚ) (r1 : RunMap)
    (h : bumpApp r a δ = some r1) :
    List.Forall₂ entryFrame r r1 ∧ (0 ≤ δ → List.Forall₂ entryLe r r1) := by
  unfold bumpApp at h
  cases hl : dictLookup r a.id with
  | none => rw [hl] at h; cases h
  | some e =>
    rw [hl] at h
    obtain ⟨k, sub, p⟩ := e
    cases h
    exact ⟨dictSet_entryFrame r a k sub p _ hl,
      fun hδ => dictSet_entryLe r a k sub p δ hδ hl⟩

theorem nominalRate_nonneg (a : App) (h : 0 < a.duration) : 0 ≤ a.nominalRate := by
  unfold App.nominalRate
  have hq : (0 : ℚ) < (a.duration : ℚ) := by exact_mod_cast h
  exact div_nonneg zero_le_one (le_of_lt hq)

theorem addProgress_nil (sch : Sched) (t : Int) :
    sch.addProgress [] t = some (sch, []) := by
  cases sch <;> rfl

theorem foldlM_option_invariant_mem {σ β : Type} (step : σ → β → Option σ)
    (P : σ → Prop) :
    ∀ (l : List β), (∀ s b, b ∈ l → P s → ∀ s1, step s b = some s1 → P s1) →
    ∀ (s s1 : σ), P s → l.foldlM step s = some s1 → P s1 := by
  intro l
  induction l with
  | nil =>
    intro _ s s1 hs h
    simp only [List.foldlM] at h
    cases h
    exact hs
  | cons b bs ih =>
    intro hstep s s1 hs h
    simp only [List.foldlM] at h
    cases hb : step s b with
    | none => rw [hb] at h; cases h
    | some s2 =>
      rw [hb] at h
      exact ih (fun s b1 hb1 => hstep s b1 (List.mem_cons_of_mem b hb1)) s2 s1
        (hstep s b (List.mem_cons_self b bs) hs s2 hb) h

theorem listRemoveFirst_subset (q : List App) (i : Int) (a : App)
    (h : a ∈ listRemoveFirst q i) : a ∈ q := by
  induction q with
  | nil => cases h
  | cons x xs ih =>
    simp only [listRemoveFirst] at h
    by_cases hx : x.id = i
    · rw [if_pos hx] at h
      exact List.mem_cons_of_mem x h
    · rw [if_neg hx] at h
      rcases List.mem_cons.mp h with rfl | h
      · exact List.mem_cons_self _ _
      · exact List.mem_cons_of_mem x (ih h)

theorem mfqSync_queues_subset (r : RunMap) (queues : List (List App))
    (aq : List (App × Nat)) (q1 : List (List App)) (aq1 : List (App × Nat))
    (h : mfqSync r queues aq = some (q1, aq1)) :
    ∀ a qq, qq ∈ q1 → a ∈ qq → ∃ qq0 ∈ queues, a ∈ qq0 := by
  unfold mfqSync at h
  refine foldlM_option_invariant_mem _
    (fun p => ∀ a qq, qq ∈ p.1 → a ∈ qq → ∃ qq0 ∈ queues, a ∈ qq0)
    aq ?_ (queues, aq) (q1, aq1) ?_ h
  · intro p e _ hp p1 hstep
    by_cases hc : dictContains r e.1.id
    · rw [if_pos hc] at hstep
      cases hstep
      exact hp
    · rw [if_neg hc] at hstep
      cases hg : p.1.get? e.2 with
      | none => rw [hg] at hstep; cases hstep
      | some q =>
        rw [hg] at hstep
        cases hstep
        intro a qq hqq ha
        rcases List.mem_or_eq_of_mem_set hqq with hqq | rfl
        · exact hp a qq hqq ha
        · exact hp a q (List.get?_mem hg) (listRemoveFirst_subset q e.1.id a ha)
  · intro a qq hqq ha
    exact ⟨qq, hqq, ha⟩

theorem mfqAdd_queues_subset (r : RunMap) (queues : List (List App))
    (aq : List (App × Nat)) (q2 : List (List App)) (aq2 : List (App × Nat))
    (h : mfqAdd r queues aq = some (q2, aq2)) :
    ∀ a qq, qq ∈ q2 → a ∈ qq →
      (∃ qq0 ∈ queues, a ∈ qq0) ∨ (∃ e ∈ r, e.1 = a) := by
  unfold mfqAdd at h
  refine foldlM_option_invariant_mem _
    (fun p => ∀ a qq, qq ∈ p.1 → a ∈ qq →
      (∃ qq0 ∈ queues, a ∈ qq0) ∨ (∃ e ∈ r, e.1 = a))
    r ?_ (queues, aq) (q2, aq2) ?_ h
  · intro p e he hp p1 hstep
    by_cases hc : dictContains p.2 e.1.id
    · rw [if_pos hc] at hstep
      cases hstep
      exact hp
    · rw [if_neg hc] at hstep
      cases hg : p.1.get? 0 with
      | none => rw [hg] at hstep; cases hstep
      | some q0 =>
        rw [hg] at hstep
        cases hstep
        intro a qq hqq ha
        rcases List.mem_or_eq_of_mem_set hqq with hqq | rfl
        · exact hp a qq hqq ha
        · rcases List.mem_append.mp ha with ha | ha
          · exact hp a q0 (List.get?_mem hg) ha
          · exact Or.inr ⟨e, he, (List.mem_singleton.mp ha).symm⟩
  · intro a qq hqq ha
    exact Or.inl ⟨qq, hqq, ha⟩

theorem mfqFind_mem (queues : List (List App)) (idxs : List Nat) (i : Nat) (a : App)
    (q : List App) (h : mfqFind queues idxs = some (some (i, a, q))) :
    ∃ qq ∈ queues, a ∈ qq := by
  induction idxs with
  | nil => cases h
  | cons j js ih =>
    simp only [mfqFind] at h
    cases hg : queues.get? j with
    | none => rw [hg] at h; cases h
    | some qq =>
      rw [hg] at h
      cases qq with
      | nil => exact ih h
      | cons b bs =>
        simp only [Option.some.injEq, Prod.mk.injEq] at h
        obtain ⟨-, rfl, -⟩ := h
        exact ⟨b :: bs, List.get?_mem hg, List.mem_cons_self _ _⟩

theorem forall2_entryFrame_subKey (r r1 : RunMap)
    (h : List.Forall₂ entryFrame r r1) :
    r1.map (fun e => (e.1, e.2.1)) = r.map (fun e => (e.1, e.2.1)) := by
  induction h with
  | nil => rfl
  | cons h1 _ ih =>
    simp only [List.map_cons, ih, h1.1, h1.2]

theorem argmin_branch_frame_mono {β : Type} [LinearOrder β] (f : App × Int × ℚ → β)
    (r : RunMap) (sch0 sch1 : Sched) (r1 : RunMap)
    (h : (if r.isEmpty then some (sch0, r) else
      match pyArgmin f r with
      | none => none
      | some e => (bumpApp r e.1 e.1.nominalRate).map (fun r2 => (sch0, r2)))
        = some (sch1, r1)) :
    List.Forall₂ entryFrame r r1 ∧
    ((∀ e ∈ r, 0 < e.1.duration) → List.Forall₂ entryLe r r1) := by
  by_cases hie : r.isEmpty
  · rw [if_pos hie] at h
    obtain ⟨-, rfl⟩ : sch0 = sch1 ∧ r = r1 := by
      simpa [Prod.ext_iff] using Option.some.inj h
    exact ⟨forall2_entryFrame_refl r, fun _ => forall2_entryLe_refl r⟩
  · rw [if_neg hie] at h
    cases ha : pyArgmin f r with
    | none => rw [ha] at h; cases h
    | some e =>
      rw [ha] at h
      dsimp only at h
      cases hb : bumpApp r e.1 e.1.nominalRate with
      | none => rw [hb] at h; cases h
      | some r2 =>
        rw [hb] at h
        simp only [Option.map_some'] at h
        obtain ⟨-, rfl⟩ : sch0 = sch1 ∧ r2 = r1 := by
          simpa [Prod.ext_iff] using Option.some.inj h
        obtain ⟨hf, hm⟩ := bumpApp_frame_mono r e.1 e.1.nominalRate r2 hb
        exact ⟨hf, fun hdur =>
          hm (nominalRate_nonneg e.1 (hdur e (pyArgmin_mem f r e ha)))⟩

theorem addProgress_frame_mono (sch : Sched) (r : RunMap) (t : Int) (sch1 : Sched)
    (r1 : RunMap) (h : sch.addProgress r t = some (sch1, r1)) :
    List.Forall₂ entryFrame r r1 ∧
    ((∀ e ∈ r, 0 < e.1.duration) → sch.paramsOK →
      List.Forall₂ entryLe r r1) := by
  cases sch with
  | FIFO =>
    simp only [Sched.addProgress] at h
    obtain ⟨hf, hm⟩ := argmin_branch_frame_mono _ r Sched.FIFO sch1 r1 h
    exact ⟨hf, fun hdur _ => hm hdur⟩
  | EDFPure =>
    simp only [Sched.addProgress] at h
    obtain ⟨hf, hm⟩ := argmin_branch_frame_mono _ r Sched.EDFPure sch1 r1 h
    exact ⟨hf, fun hdur _ => hm hdur⟩
  | ShortestJobNext =>
    simp only [Sched.addProgress] at h
    obtain ⟨hf, hm⟩ := argmin_branch_frame_mono _ r Sched.ShortestJobNext sch1 r1 h
    exact ⟨hf, fun hdur _ => hm hdur⟩
  | LeastLaxityFirst =>
    simp only [Sched.addProgress] at h
    obtain ⟨hf, hm⟩ := argmin_branch_frame_mono _ r Sched.LeastLaxityFirst sch1 r1 h
    exact ⟨hf, fun hdur _ => hm hdur⟩
  | Fair =>
    simp only [Sched.addProgress] at h
    by_cases hie : r.isEmpty
    · rw [if_pos hie] at h
      obtain ⟨-, rfl⟩ : Sched.Fair = sch1 ∧ r = r1 := by
        simpa [Prod.ext_iff] using Option.some.inj h
      exact ⟨forall2_entryFrame_refl r, fun _ _ => forall2_entryLe_refl r⟩
    · rw [if_neg hie] at h
      obtain ⟨-, rfl⟩ : Sched.Fair = sch1 ∧
          r.map (fun e => (e.1, e.2.1, e.2.2 + e.1.nominalRate / (r.length : ℚ))) = r1 := by
        simpa [Prod.ext_iff] using Option.some.inj h
      constructor
      · exact forall2_entryFrame_map r _ (fun e _ => ⟨rfl, rfl⟩)
      · intro hdur _
        refine forall2_entryLe_map r _ ?_
        intro e he
        refine ⟨rfl, rfl, ?_⟩
        have h1 : 0 ≤ e.1.nominalRate := nominalRate_nonneg e.1 (hdur e he)
        have h2 : (0 : ℚ) ≤ (r.length : ℚ) := by positivity
        exact le_add_of_nonneg_right (div_nonneg h1 h2)
  | EDFAll =>
    simp only [Sched.addProgress] at h
    by_cases hie : r.isEmpty
    · rw [if_pos hie] at h
      obtain ⟨-, rfl⟩ : Sched.EDFAll = sch1 ∧ r = r1 := by
        simpa [Prod.ext_iff] using Option.some.inj h
      exact ⟨forall2_entryFrame_refl r, fun _ _ => forall2_entryLe_refl r⟩
    · rw [if_neg hie] at h
      obtain ⟨-, rfl⟩ : Sched.EDFAll = sch1 ∧
          r.map (fun e => (e.1, e.2.1, e.2.2 + e.1.nominalRate)) = r1 := by
        simpa [Prod.ext_iff] using Option.some.inj h
      constructor
      · exact forall2_entryFrame_map r _ (fun e _ => ⟨rfl, rfl⟩)
      · intro hdur _
        refine forall2_entryLe_map r _ ?_
        intro e he
        exact ⟨rfl, rfl, le_add_of_nonneg_right (nominalRate_nonneg e.1 (hdur e he))⟩
  | RoundRobin ts li =>
    simp only [Sched.addProgress] at h
    by_cases hie : r.isEmpty
    · rw [if_pos hie] at h
      obtain ⟨-, rfl⟩ : Sched.RoundRobin ts li = sch1 ∧ r = r1 := by
        simpa [Prod.ext_iff] using Option.some.inj h
      exact ⟨forall2_entryFrame_refl r, fun _ _ => forall2_entryLe_refl r⟩
    · rw [if_neg hie] at h
      cases hg : (r.map (fun e => e.1)).get? ((li + 1) % (r.length : Int)).toNat with
      | none => rw [hg] at h; cases h
      | some a =>
        rw [hg] at h
        dsimp only at h
        cases hb : bumpApp r a (a.nominalRate * (ts : ℚ)) with
        | none => rw [hb] at h; cases h
        | some r2 =>
          rw [hb] at h
          simp only [Option.map_some'] at h
          obtain ⟨-, rfl⟩ : Sched.RoundRobin ts ((li + 1) % (r.length : Int)) = sch1 ∧
              r2 = r1 := by
            simpa [Prod.ext_iff] using Option.some.inj h
          obtain ⟨hf, hm⟩ := bumpApp_frame_mono r a (a.nominalRate * (ts : ℚ)) r2 hb
          refine ⟨hf, fun hdur hok => hm ?_⟩
          have hamem : a ∈ r.map (fun e => e.1) := List.get?_mem hg
          obtain ⟨e, he, rfl⟩ := List.mem_map.mp hamem
          have hts : (0 : ℚ) ≤ (ts : ℚ) := by exact_mod_cast (hok : 0 ≤ ts)
          exact mul_nonneg (nominalRate_nonneg e.1 (hdur e he)) hts
  | PriorityScheduler ps =>
    simp only [Sched.addProgress] at h
    by_cases hie : r.isEmpty
    · rw [if_pos hie] at h
      obtain ⟨-, rfl⟩ : Sched.PriorityScheduler ps = sch1 ∧ r = r1 := by
        simpa [Prod.ext_iff] using Option.some.inj h
      exact ⟨forall2_entryFrame_refl r, fun _ _ => forall2_entryLe_refl r⟩
    · rw [if_neg hie] at h
      by_cases hall : r.all (fun e => dictContains ps e.1.id)
      · rw [if_pos hall] at h
        cases ha : pyArgmax (fun e : App × Int × ℚ => priOf ps e.1) r with
        | none => rw [ha] at h; cases h
        | some e =>
          rw [ha] at h
          dsimp only at h
          cases hb : bumpApp r e.1 e.1.nominalRate with
          | none => rw [hb] at h; cases h
          | some r2 =>
            rw [hb] at h
            simp only [Option.map_some'] at h
            obtain ⟨-, rfl⟩ : Sched.PriorityScheduler ps = sch1 ∧ r2 = r1 := by
              simpa [Prod.ext_iff] using Option.some.inj h
            obtain ⟨hf, hm⟩ := bumpApp_frame_mono r e.1 e.1.nominalRate r2 hb
            exact ⟨hf, fun hdur _ =>
              hm (nominalRate_nonneg e.1 (hdur e (pyArgmax_spec _ r e ha).1))⟩
      · rw [if_neg hall] at h
        cases h
  | MultilevelFeedbackQueue n slices queues aq =>
    simp only [Sched.addProgress] at h
    by_cases hie : r.isEmpty
    · rw [if_pos hie] at h
      obtain ⟨-, rfl⟩ : Sched.MultilevelFeedbackQueue n slices queues aq = sch1 ∧
          r = r1 := by
        simpa [Prod.ext_iff] using Option.some.inj h
      exact ⟨forall2_entryFrame_refl r, fun _ _ => forall2_entryLe_refl r⟩
    · rw [if_neg hie] at h
      cases hs : mfqSync r queues aq with
      | none => rw [hs] at h; cases h
      | some p1 =>
        rw [hs] at h
        obtain ⟨q1, aq1⟩ := p1
        dsimp only at h
        cases hadd : mfqAdd r q1 aq1 with
        | none => rw [hadd] at h; cases h
        | some p2 =>
          rw [hadd] at h
          obtain ⟨q2, aq2⟩ := p2
          dsimp only at h
          cases hfind : mfqFind q2 (List.range n) with
          | none => rw [hfind] at h; cases h
          | some found =>
            rw [hfind] at h
            cases found with
            | none =>
              dsimp only at h
              obtain ⟨-, rfl⟩ : Sched.MultilevelFeedbackQueue n slices q2 aq2 = sch1 ∧
                  r = r1 := by
                simpa [Prod.ext_iff] using Option.some.inj h
              exact ⟨forall2_entryFrame_refl r, fun _ _ => forall2_entryLe_refl r⟩
            | some trip =>
              obtain ⟨i, a, q⟩ := trip
              dsimp only at h
              simp only [mfqServe] at h
              cases hl : dictLookup r a.id with
              | none =>
                rw [hl] at h
                dsimp only at h
                obtain ⟨-, rfl⟩ :
                    Sched.MultilevelFeedbackQueue n slices (q2.set i q) aq2 = sch1 ∧
                    r = r1 := by
                  simpa [Prod.ext_iff] using Option.some.inj h
                exact ⟨forall2_entryFrame_refl r, fun _ _ => forall2_entryLe_refl r⟩
              | some ev =>
                obtain ⟨k, sub, p⟩ := ev
                rw [hl] at h
                dsimp only at h
                cases hts : slices.get? i with
                | none => rw [hts] at h; cases h
                | some ts =>
                  rw [hts] at h
                  dsimp only at h
                  have main : List.Forall₂ entryFrame r
                      (dictSet r a (sub, p + a.nominalRate * (ts : ℚ))) ∧
                      ((∀ e ∈ r, 0 < e.1.duration) →
                        Sched.paramsOK (Sched.MultilevelFeedbackQueue n slices queues aq) →
                        List.Forall₂ entryLe r
                          (dictSet r a (sub, p + a.nominalRate * (ts : ℚ)))) := by
                    constructor
                    · exact dictSet_entryFrame r a k sub p _ hl
                    · intro hdur hok
                      obtain ⟨hslices, hqueues⟩ := hok
                      have hada : 0 < a.duration := by
                        obtain ⟨qq, hqq, haqq⟩ := mfqFind_mem q2 (List.range n) i a q hfind
                        rcases mfqAdd_queues_subset r q1 aq1 q2 aq2 hadd a qq hqq haqq with
                          hcase | hcase
                        · obtain ⟨qq0, hqq0, haqq0⟩ := hcase
                          obtain ⟨qq00, hqq00, haqq00⟩ :=
                            mfqSync_queues_subset r queues aq q1 aq1 hs a qq0 hqq0 haqq0
                          exact hqueues qq00 hqq00 a haqq00
                        · obtain ⟨e, he, rfl⟩ := hcase
                          exact hdur e he
                      have hts0 : (0 : ℚ) ≤ (ts : ℚ) := by
                        exact_mod_cast hslices ts (List.get?_mem hts)
                      exact dictSet_entryLe r a k sub p _
                        (mul_nonneg (nominalRate_nonneg a hada) hts0) hl
                  by_cases hp1 : p + a.nominalRate * (ts : ℚ) < 1
                  · rw [if_pos hp1] at h
                    cases hq : (q2.set i q).get? (min (i + 1) (n - 1)) with
                    | none => rw [hq] at h; cases h
                    | some qn =>
                      rw [hq] at h
                      obtain ⟨-, rfl⟩ : Sched.MultilevelFeedbackQueue n slices
                          (((q2.set i q)).set (min (i + 1) (n - 1)) (qn ++ [a]))
                          (dictSet aq2 a (min (i + 1) (n - 1))) = sch1 ∧
                          dictSet r a (sub, p + a.nominalRate * (ts : ℚ)) = r1 := by
                        simpa [Prod.ext_iff] using Option.some.inj h
                      exact main
                  · rw [if_neg hp1] at h
                    obtain ⟨-, rfl⟩ : Sched.MultilevelFeedbackQueue n slices (q2.set i q)
                        (dictErase aq2 a.id) = sch1 ∧
                        dictSet r a (sub, p + a.nominalRate * (ts : ℚ)) = r1 := by
                      simpa [Prod.ext_iff] using Option.some.inj h
                    exact main

/-- C7: for each of the nine policy variants (with non-negative time slices
where the variant takes them, and positive job durations as the data model
requires), `addProgress` is a no-op on an empty running dict, and any
successful call preserves every entry's key and submission time and never
decreases any entry's progress. -/
theorem addProgress_policies_spec (sch : Sched) (r : RunMap) (t : Int)
    (hdur : ∀ e ∈ r, 0 < e.1.duration) (hok : sch.paramsOK) :
    (r = [] → sch.addProgress r t = some (sch, r)) ∧
    (∀ sch1 r1, sch.addProgress r t = some (sch1, r1) →
      List.Forall₂ entryLe r r1) := by
  constructor
  · rintro rfl
    exact addProgress_nil sch t
  · intro sch1 r1 h
    exact (addProgress_frame_mono sch r t sch1 r1 h).2 hdur hok

/-- C7 (witness): FIFO on one running job advances its progress from 0 to
1/2 while keeping key and submission time. -/
theorem addProgress_policies_spec_witness :
    List.Forall₂ entryLe [(jobA, (1, 0))] [(jobA, (1, (1 : ℚ)/2))] :=
  (addProgress_policies_spec Sched.FIFO [(jobA, (1, 0))] 0 (by decide) trivial).2
    Sched.FIFO [(jobA, (1, (1 : ℚ)/2))] (by with_unfolding_all decide)

/-! ## Lemmas for the tick characterization -/

theorem dictContains_cons {α : Type} (x : App × α) (xs : List (App × α)) (j : Int) :
    dictContains (x :: xs) j = (decide (x.1.id = j) || dictContains xs j) := by
  simp only [dictContains, dictLookup]
  by_cases hx : x.1.id = j
  · simp [hx]
  · simp [hx]

theorem dictContains_append {α : Type} (m1 m2 : List (App × α)) (j : Int) :
    dictContains (m1 ++ m2) j = (dictContains m1 j || dictContains m2 j) := by
  induction m1 with
  | nil => simp [dictContains, dictLookup]
  | cons x xs ih =>
    rw [List.cons_append, dictContains_cons, dictContains_cons, ih, Bool.or_assoc]

theorem mem_unique_of_nodup_ids {α : Type} (m : List (App × α))
    (hn : (m.map (fun e => e.1.id)).Nodup) (e f : App × α)
    (he : e ∈ m) (hf : f ∈ m) (hid : e.1.id = f.1.id) : e = f := by
  induction m with
  | nil => cases he
  | cons x xs ih =>
    rw [List.map_cons, List.nodup_cons] at hn
    rcases List.mem_cons.mp he with rfl | he2
    · rcases List.mem_cons.mp hf with rfl | hf2
      · rfl
      · have hmem : f.1.id ∈ List.map (fun e => e.1.id) xs :=
          List.mem_map_of_mem (fun e => e.1.id) hf2
        rw [← hid] at hmem
        exact absurd hmem hn.1
    · rcases List.mem_cons.mp hf with rfl | hf2
      · have hmem : e.1.id ∈ List.map (fun e => e.1.id) xs :=
          List.mem_map_of_mem (fun e => e.1.id) he2
        rw [hid] at hmem
        exact absurd hmem hn.1
      · exact ih hn.2 he2 hf2

theorem dictErase_eq_filter_of_nodup {α : Type} (m : List (App × α)) (i : Int)
    (hn : (m.map (fun e => e.1.id)).Nodup) :
    dictErase m i = m.filter (fun e => decide (e.1.id ≠ i)) := by
  induction m with
  | nil => rfl
  | cons x xs ih =>
    rw [List.map_cons, List.nodup_cons] at hn
    simp only [dictErase, List.filter_cons]
    by_cases hx : x.1.id = i
    · rw [if_pos hx]
      have hfx : (decide (x.1.id ≠ i)) = false := by simp [hx]
      rw [hfx]
      simp only [Bool.false_eq_true, if_false]
      symm
      apply List.filter_eq_self.mpr
      intro e he
      simp only [decide_eq_true_eq]
      intro hc
      have hmem : e.1.id ∈ List.map (fun e => e.1.id) xs :=
        List.mem_map_of_mem (fun e => e.1.id) he
      rw [hc, ← hx] at hmem
      exact hn.1 hmem
    · rw [if_neg hx]
      have hfx : (decide (x.1.id ≠ i)) = true := by simp [hx]
      rw [hfx]
      simp only [if_true]
      rw [ih hn.2]

theorem nodup_ids_filter (r : RunMap) (p : App × Int × ℚ → Bool)
    (hn : (r.map (fun e => e.1.id)).Nodup) :
    ((r.filter p).map (fun e => e.1.id)).Nodup :=
  hn.sublist (List.Sublist.map _ (List.filter_sublist r))

theorem tickEndFold (l : RunMap) (t : Int) :
    ∀ (m : EndMap), (∀ e ∈ l, dictContains m e.1.id = false) →
    ((l.map (fun e => e.1.id)).Nodup) →
    l.foldl (fun m1 e => if (1 : ℚ) ≤ e.2.2 then dictSet m1 e.1 (e.2.1, t) else m1) m
      = m ++ (l.filter (fun e => decide ((1 : ℚ) ≤ e.2.2))).map
          (fun e => (e.1, (e.2.1, t))) := by
  induction l with
  | nil =>
    intro m _ _
    simp
  | cons x xs ih =>
    intro m hfresh hnodup
    rw [List.map_cons, List.nodup_cons] at hnodup
    simp only [List.foldl_cons, List.filter_cons]
    by_cases hx : (1 : ℚ) ≤ x.2.2
    · rw [if_pos hx]
      have hfx : dictContains m x.1.id = false := hfresh x (List.mem_cons_self x xs)
      rw [dictSet_eq_append m x.1 (x.2.1, t) hfx]
      have hfresh2 : ∀ e ∈ xs, dictContains (m ++ [(x.1, (x.2.1, t))]) e.1.id = false := by
        intro e he
        rw [dictContains_eq_false_iff]
        rw [dictLookup_append_ne m x.1 (x.2.1, t) e.1.id ?_]
        · exact (dictContains_eq_false_iff m e.1.id).mp
            (hfresh e (List.mem_cons_of_mem x he))
        · intro hc
          have hmem : e.1.id ∈ List.map (fun e => e.1.id) xs :=
            List.mem_map_of_mem (fun e => e.1.id) he
          rw [hc] at hmem
          exact hnodup.1 hmem
      rw [ih (m ++ [(x.1, (x.2.1, t))]) hfresh2 hnodup.2]
      have hdx : (decide ((1 : ℚ) ≤ x.2.2)) = true := by simp [hx]
      rw [hdx]
      simp [List.append_assoc]
    · rw [if_neg hx]
      have hdx : (decide ((1 : ℚ) ≤ x.2.2)) = false := by simp [hx]
      rw [hdx]
      simp only [Bool.false_eq_true, if_false]
      exact ih m (fun e he => hfresh e (List.mem_cons_of_mem x he)) hnodup.2

theorem tickEraseFold (el : EndMap) :
    ∀ (r : RunMap), ((r.map (fun e => e.1.id)).Nodup) →
    el.foldl (fun rr e => if dictContains rr e.1.id then dictErase rr e.1.id else rr) r
      = r.filter (fun e => !(dictContains el e.1.id)) := by
  induction el with
  | nil =>
    intro r _
    simp only [List.foldl_nil]
    symm
    apply List.filter_eq_self.mpr
    intro e _
    simp [dictContains, dictLookup]
  | cons x xs ih =>
    intro r hn
    simp only [List.foldl_cons]
    have hstep : (if dictContains r x.1.id then dictErase r x.1.id else r)
        = r.filter (fun e => decide (e.1.id ≠ x.1.id)) := by
      by_cases hc : dictContains r x.1.id
      · rw [if_pos hc]
        exact dictErase_eq_filter_of_nodup r x.1.id hn
      · rw [if_neg hc]
        symm
        apply List.filter_eq_self.mpr
        intro e he
        simp only [decide_eq_true_eq]
        intro hcc
        exact hc ((dictContains_eq_true_iff r x.1.id).mpr ⟨e, he, hcc⟩)
    rw [hstep, ih _ (nodup_ids_filter r _ hn), List.filter_filter]
    apply List.filter_congr
    intro e _
    rw [dictContains_cons]
    by_cases h1 : e.1.id = x.1.id
    · simp [h1]
    · have h2 : ¬ x.1.id = e.1.id := fun hc => h1 hc.symm
      simp [h1, h2]

/-- C4: `tick(t)` on a Timeline State (disjoint dicts with unique ids) is the
identity when `running` is empty; otherwise it performs the policy's single
`addProgress` call — which preserves every entry's key and submission time —
then moves exactly the entries whose progress reached 1 into `ended` with
value `(submissionTime, t)` (appended after the pre-existing `ended` entries,
which are unchanged), keeping exactly the entries with progress below 1 in
`running`. -/
theorem tick_spec (sch : Sched) (s : Spark) (t : Int)
    (hnodupr : (s.running.map (fun e => e.1.id)).Nodup)
    (hdisj : ∀ i : Int, dictContains s.running i = true →
      dictContains s.ended i = false) :
    (s.running = [] → Spark.tick sch s t = some (sch, s)) ∧
    (∀ sch1 r1, sch.addProgress s.running t = some (sch1, r1) →
      r1.map (fun e => (e.1, e.2.1)) = s.running.map (fun e => (e.1, e.2.1)) ∧
      Spark.tick sch s t = some (sch1,
        ⟨r1.filter (fun e => decide (e.2.2 < 1)),
         s.ended ++ (r1.filter (fun e => decide ((1 : ℚ) ≤ e.2.2))).map
           (fun e => (e.1, (e.2.1, t)))⟩)) := by
  obtain ⟨rs, es⟩ := s
  simp only at hnodupr hdisj
  constructor
  · intro hr
    subst hr
    simp [Spark.tick]
  · intro sch1 r1 h
    have hframe := (addProgress_frame_mono sch rs t sch1 r1 h).1
    have hsub : r1.map (fun e => (e.1, e.2.1)) = rs.map (fun e => (e.1, e.2.1)) :=
      forall2_entryFrame_subKey rs r1 hframe
    refine ⟨hsub, ?_⟩
    have hids : r1.map (fun e => e.1.id) = rs.map (fun e => e.1.id) := by
      have h2 := congrArg (List.map (fun q : App × Int => q.1.id)) hsub
      simpa [List.map_map, Function.comp] using h2
    by_cases hrs : rs = []
    · subst hrs
      rw [addProgress_nil] at h
      obtain ⟨rfl, rfl⟩ : sch = sch1 ∧ ([] : RunMap) = r1 := by
        simpa [Prod.ext_iff] using Option.some.inj h
      simp [Spark.tick]
    · have hie : rs.isEmpty = false := isEmpty_false_of_ne_nil rs hrs
      have hnodup1 : (r1.map (fun e => e.1.id)).Nodup := by
        rw [hids]; exact hnodupr
      have hfresh : ∀ e ∈ r1, dictContains es e.1.id = false := by
        intro e he
        apply hdisj e.1.id
        rw [dictContains_eq_true_iff]
        have hmem : e.1.id ∈ rs.map (fun e => e.1.id) := by
          rw [← hids]
          exact List.mem_map_of_mem (fun e => e.1.id) he
        obtain ⟨f, hf, hfid⟩ := List.mem_map.mp hmem
        exact ⟨f, hf, hfid⟩
      simp only [Spark.tick, hie, Bool.false_eq_true, if_false, h]
      rw [tickEndFold r1 t es hfresh hnodup1]
      rw [tickEraseFold (es ++ (r1.filter (fun e => decide ((1 : ℚ) ≤ e.2.2))).map
        (fun e => (e.1, (e.2.1, t)))) r1 hnodup1]
      have hfe : ∀ e ∈ r1,
          (!(dictContains (es ++ (r1.filter (fun e => decide ((1 : ℚ) ≤ e.2.2))).map
            (fun e => (e.1, (e.2.1, t)))) e.1.id)) = decide (e.2.2 < 1) := by
        intro e he
        rw [dictContains_append, hfresh e he, Bool.false_or]
        by_cases hp : (1 : ℚ) ≤ e.2.2
        · have hc : dictContains ((r1.filter (fun e => decide ((1 : ℚ) ≤ e.2.2))).map
              (fun e => (e.1, (e.2.1, t)))) e.1.id = true := by
            rw [dictContains_eq_true_iff]
            refine ⟨(e.1, (e.2.1, t)), ?_, rfl⟩
            exact List.mem_map_of_mem _ (List.mem_filter.mpr ⟨he, by simp [hp]⟩)
          rw [hc]
          simp [not_lt.mpr hp]
        · have hc : dictContains ((r1.filter (fun e => decide ((1 : ℚ) ≤ e.2.2))).map
              (fun e => (e.1, (e.2.1, t)))) e.1.id = false := by
            by_contra hcc
            simp only [Bool.not_eq_false] at hcc
            obtain ⟨x, hx, hxid⟩ := (dictContains_eq_true_iff _ e.1.id).mp hcc
            obtain ⟨f, hf, rfl⟩ := List.mem_map.mp hx
            obtain ⟨hfr, hffin⟩ := List.mem_filter.mp hf
            have hfeq : f = e := mem_unique_of_nodup_ids r1 hnodup1 f e hfr he
              (by simpa using hxid)
            rw [hfeq] at hffin
            simp only [decide_eq_true_eq] at hffin
            exact hp hffin
          rw [hc]
          simp [lt_of_not_le hp]
      rw [List.filter_congr hfe]

/-- C4 (witness): FIFO ticking a state whose job is at progress 1/2 with
submission time 1 finishes it: it moves to `ended` with value `(1, 1)`. -/
theorem tick_spec_witness :
    Spark.tick Sched.FIFO ⟨[(jobA, (1, (1 : ℚ)/2))], []⟩ 1
      = some (Sched.FIFO, ⟨[], [(jobA, (1, 1))]⟩) :=
  ((tick_spec Sched.FIFO ⟨[(jobA, (1, (1 : ℚ)/2))], []⟩ 1 (by decide)
      (fun _ _ => rfl)).2 Sched.FIFO [(jobA, (1, (1 : ℚ)))]
      (by with_unfolding_all decide)).2.trans (by with_unfolding_all decide)

/-! ## Presence lemmas and the dependency-order invariant -/

theorem bool_eq_of_iff (a b : Bool) (h : a = true ↔ b = true) : a = b := by
  cases a
  · cases b
    · rfl
    · have hc := h.mpr rfl
      cases hc
  · rw [h.mp rfl]

theorem dictContains_singleton {α : Type} (a : App) (v : α) (i : Int) :
    dictContains [(a, v)] i = decide (a.id = i) := by
  simp only [dictContains, dictLookup]
  by_cases h : a.id = i
  · simp [h]
  · simp [h]

theorem dictContains_dictSet_imp {α : Type} (m : List (App × α)) (a : App) (v : α)
    (i : Int) (h : dictContains (dictSet m a v) i = true) :
    dictContains m i = true ∨ a.id = i := by
  induction m with
  | nil =>
    simp only [dictSet, dictContains_singleton, decide_eq_true_eq] at h
    exact Or.inr h
  | cons x xs ih =>
    simp only [dictSet] at h
    by_cases hx : x.1.id = a.id
    · rw [if_pos hx] at h
      rw [dictContains_cons, Bool.or_eq_true] at h
      rcases h with h | h
      · rw [dictContains_cons]
        simp only [decide_eq_true_eq] at h
        simp [h]
      · rw [dictContains_cons]
        simp [h]
    · rw [if_neg hx] at h
      rw [dictContains_cons, Bool.or_eq_true] at h
      rcases h with h | h
      · rw [dictContains_cons]
        simp [h]
      · rcases ih h with h2 | h2
        · rw [dictContains_cons]
          simp [h2]
        · exact Or.inr h2

theorem dictContains_dictSet_mono {α : Type} (m : List (App × α)) (a : App) (v : α)
    (i : Int) (h : dictContains m i = true) :
    dictContains (dictSet m a v) i = true := by
  induction m with
  | nil => simp [dictContains, dictLookup] at h
  | cons x xs ih =>
    simp only [dictSet]
    rw [dictContains_cons, Bool.or_eq_true] at h
    by_cases hx : x.1.id = a.id
    · rw [if_pos hx, dictContains_cons]
      rcases h with h | h
      · simp [h]
      · simp [h]
    · rw [if_neg hx, dictContains_cons]
      rcases h with h | h
      · simp [h]
      · simp [ih h]

theorem dictContains_dictErase_imp {α : Type} (m : List (App × α)) (j i : Int)
    (h : dictContains (dictErase m j) i = true) : dictContains m i = true := by
  induction m with
  | nil => simp [dictErase, dictContains, dictLookup] at h
  | cons x xs ih =>
    simp only [dictErase] at h
    by_cases hx : x.1.id = j
    · rw [if_pos hx] at h
      rw [dictContains_cons]
      simp [h]
    · rw [if_neg hx] at h
      rw [dictContains_cons, Bool.or_eq_true] at h
      rw [dictContains_cons]
      rcases h with h | h
      · simp [h]
      · simp [ih h]

theorem dictContains_dictErase_ne {α : Type} (m : List (App × α)) (j i : Int)
    (hne : j ≠ i) : dictContains (dictErase m j) i = dictContains m i := by
  induction m with
  | nil => rfl
  | cons x xs ih =>
    simp only [dictErase]
    by_cases hx : x.1.id = j
    · rw [if_pos hx, dictContains_cons]
      have hd : decide (x.1.id = i) = false := by
        simp only [decide_eq_false_iff_not]
        rw [hx]
        exact hne
      rw [hd, Bool.false_or]
    · rw [if_neg hx, dictContains_cons, dictContains_cons, ih]

theorem foldl_invariant_mem {σ β : Type} (f : σ → β → σ) (P : σ → Prop) :
    ∀ (l : List β), (∀ s b, b ∈ l → P s → P (f s b)) → ∀ s, P s → P (l.foldl f s) := by
  intro l
  induction l with
  | nil => intro _ s hs; exact hs
  | cons b bs ih =>
    intro hstep s hs
    simp only [List.foldl_cons]
    exact ih (fun s1 b1 hb1 => hstep s1 b1 (List.mem_cons_of_mem b hb1)) (f s b)
      (hstep s b (List.mem_cons_self b bs) hs)

theorem dictContains_congr_ids {α β : Type} (m1 : List (App × α)) (m2 : List (App × β))
    (h : m1.map (fun e => e.1.id) = m2.map (fun e => e.1.id)) (i : Int) :
    dictContains m1 i = dictContains m2 i := by
  have hiff : dictContains m1 i = true ↔ dictContains m2 i = true := by
    rw [dictContains_eq_true_iff, dictContains_eq_true_iff]
    constructor
    · rintro ⟨e, he, hei⟩
      have hmem : e.1.id ∈ m2.map (fun e => e.1.id) := by
        rw [← h]
        exact List.mem_map_of_mem (fun e => e.1.id) he
      obtain ⟨f, hf, hfi⟩ := List.mem_map.mp hmem
      exact ⟨f, hf, by rw [hfi, hei]⟩
    · rintro ⟨e, he, hei⟩
      have hmem : e.1.id ∈ m1.map (fun e => e.1.id) := by
        rw [h]
        exact List.mem_map_of_mem (fun e => e.1.id) he
      obtain ⟨f, hf, hfi⟩ := List.mem_map.mp hmem
      exact ⟨f, hf, by rw [hfi, hei]⟩
  exact bool_eq_of_iff _ _ hiff

theorem tick_folds_presentB (r1 : RunMap) (es : EndMap) (t : Int) (i : Int) :
    (dictContains
        ((r1.foldl (fun m e => if (1 : ℚ) ≤ e.2.2 then dictSet m e.1 (e.2.1, t) else m)
          es).foldl
          (fun rr e => if dictContains rr e.1.id then dictErase rr e.1.id else rr) r1) i
      || dictContains
        (r1.foldl (fun m e => if (1 : ℚ) ≤ e.2.2 then dictSet m e.1 (e.2.1, t) else m)
          es) i)
    = (dictContains r1 i || dictContains es i) := by
  have hEfwd : ∀ j : Int, dictContains
      (r1.foldl (fun m e => if (1 : ℚ) ≤ e.2.2 then dictSet m e.1 (e.2.1, t) else m) es)
      j = true → (dictContains es j = true ∨ ∃ e ∈ r1, e.1.id = j) := by
    have key := foldl_invariant_mem
      (fun m e => if (1 : ℚ) ≤ e.2.2 then dictSet m e.1 (e.2.1, t) else m)
      (fun m => ∀ j : Int, dictContains m j = true →
        (dictContains es j = true ∨ ∃ e ∈ r1, e.1.id = j)) r1 ?_ es ?_
    · exact key
    · intro m e he hm j hj
      dsimp only at hj
      by_cases hfin : (1 : ℚ) ≤ e.2.2
      · rw [if_pos hfin] at hj
        rcases dictContains_dictSet_imp m e.1 (e.2.1, t) j hj with hj2 | hj2
        · exact hm j hj2
        · exact Or.inr ⟨e, he, hj2⟩
      · rw [if_neg hfin] at hj
        exact hm j hj
    · intro j hj
      exact Or.inl hj
  have hEmono : ∀ j : Int, dictContains es j = true → dictContains
      (r1.foldl (fun m e => if (1 : ℚ) ≤ e.2.2 then dictSet m e.1 (e.2.1, t) else m) es)
      j = true := by
    intro j hj
    refine foldl_invariant_mem
      (fun m e => if (1 : ℚ) ≤ e.2.2 then dictSet m e.1 (e.2.1, t) else m)
      (fun m => dictContains m j = true) r1 ?_ es hj
    intro m e _ hm
    dsimp only
    by_cases hfin : (1 : ℚ) ≤ e.2.2
    · rw [if_pos hfin]
      exact dictContains_dictSet_mono m e.1 (e.2.1, t) j hm
    · rw [if_neg hfin]
      exact hm
  have hR2imp : ∀ j : Int, dictContains
      ((r1.foldl (fun m e => if (1 : ℚ) ≤ e.2.2 then dictSet m e.1 (e.2.1, t) else m)
        es).foldl
        (fun rr e => if dictContains rr e.1.id then dictErase rr e.1.id else rr) r1)
      j = true → dictContains r1 j = true := by
    intro j
    refine foldl_invariant_mem
      (fun (rr : RunMap) (e : App × Int × Int) =>
        if dictContains rr e.1.id then dictErase rr e.1.id else rr)
      (fun rr => dictContains rr j = true → dictContains r1 j = true) _ ?_ r1 (fun hj => hj)
    intro rr e _ hrr hj
    dsimp only at hj
    by_cases hc : dictContains rr e.1.id
    · rw [if_pos hc] at hj
      exact hrr (dictContains_dictErase_imp rr e.1.id j hj)
    · rw [if_neg hc] at hj
      exact hrr hj
  have hR2keep : dictContains
      (r1.foldl (fun m e => if (1 : ℚ) ≤ e.2.2 then dictSet m e.1 (e.2.1, t) else m) es)
      i = false → dictContains
      ((r1.foldl (fun m e => if (1 : ℚ) ≤ e.2.2 then dictSet m e.1 (e.2.1, t) else m)
        es).foldl
        (fun rr e => if dictContains rr e.1.id then dictErase rr e.1.id else rr) r1)
      i = dictContains r1 i := by
    intro hEi
    refine foldl_invariant_mem
      (fun (rr : RunMap) (e : App × Int × Int) =>
        if dictContains rr e.1.id then dictErase rr e.1.id else rr)
      (fun rr => dictContains rr i = dictContains r1 i) _ ?_ r1 rfl
    intro rr e he hrr
    dsimp only
    by_cases hc : dictContains rr e.1.id
    · rw [if_pos hc]
      have hne : e.1.id ≠ i := by
        intro hcontra
        have hmm : dictContains
            (r1.foldl (fun m e => if (1 : ℚ) ≤ e.2.2 then dictSet m e.1 (e.2.1, t) else m)
              es) e.1.id = true :=
          (dictContains_eq_true_iff _ _).mpr ⟨e, he, rfl⟩
        rw [hcontra] at hmm
        rw [hmm] at hEi
        cases hEi
      rw [dictContains_dictErase_ne rr e.1.id i hne]
      exact hrr
    · rw [if_neg hc]
      exact hrr
  apply bool_eq_of_iff
  constructor
  · intro h
    rw [Bool.or_eq_true] at h
    rcases h with h | h
    · rw [hR2imp i h]
      simp
    · rcases hEfwd i h with h2 | h2
      · simp [h2]
      · obtain ⟨e, he, hei⟩ := h2
        have : dictContains r1 i = true := (dictContains_eq_true_iff _ _).mpr ⟨e, he, hei⟩
        simp [this]
  · intro h
    rw [Bool.or_eq_true] at h
    rcases h with h | h
    · by_cases hEi : dictContains
          (r1.foldl (fun m e => if (1 : ℚ) ≤ e.2.2 then dictSet m e.1 (e.2.1, t) else m)
            es) i = true
      · simp [hEi]
      · have hEi2 : dictContains
            (r1.foldl (fun m e => if (1 : ℚ) ≤ e.2.2 then dictSet m e.1 (e.2.1, t) else m)
              es) i = false := by
          cases hb : dictContains
              (r1.foldl (fun m e => if (1 : ℚ) ≤ e.2.2 then dictSet m e.1 (e.2.1, t)
                else m) es) i
          · rfl
          · exact absurd hb hEi
        rw [hR2keep hEi2, h]
        simp
    · have := hEmono i h
      simp [this]

theorem tick_presentB (sch : Sched) (s : Spark) (t : Int) (sch1 : Sched) (s1 : Spark)
    (h : Spark.tick sch s t = some (sch1, s1)) (i : Int) :
    presentB s1 i = presentB s i := by
  unfold Spark.tick at h
  by_cases hie : s.running.isEmpty
  · rw [if_pos hie] at h
    obtain ⟨-, rfl⟩ : sch = sch1 ∧ s = s1 := by
      simpa [Prod.ext_iff] using Option.some.inj h
    rfl
  · rw [if_neg hie] at h
    cases ha : sch.addProgress s.running t with
    | none => rw [ha] at h; cases h
    | some pr =>
      rw [ha] at h
      obtain ⟨sch2, r1⟩ := pr
      dsimp only at h
      have h2 := Option.some.inj h
      have hs1 : s1 = ⟨(r1.foldl
          (fun m e => if (1 : ℚ) ≤ e.2.2 then dictSet m e.1 (e.2.1, t) else m)
          s.ended).foldl
          (fun rr e => if dictContains rr e.1.id then dictErase rr e.1.id else rr) r1,
          r1.foldl (fun m e => if (1 : ℚ) ≤ e.2.2 then dictSet m e.1 (e.2.1, t) else m)
            s.ended⟩ := (congrArg Prod.snd h2).symm
      subst hs1
      have hids : r1.map (fun e => e.1.id) = s.running.map (fun e => e.1.id) := by
        have hsub := forall2_entryFrame_subKey s.running r1
          (addProgress_frame_mono sch s.running t sch2 r1 ha).1
        have h3 := congrArg (List.map (fun q : App × Int => q.1.id)) hsub
        simpa [List.map_map, Function.comp] using h3
      show (dictContains _ i || dictContains _ i) = presentB s i
      rw [tick_folds_presentB r1 s.ended t i]
      unfold presentB
      rw [dictContains_congr_ids r1 s.running hids]

theorem depInvP_schedule (s : Spark) (a : App) (t : Int) (hs : depInvP s) :
    depInvP (s.schedule a t) := by
  unfold Spark.schedule
  by_cases h1 : (dictContains s.running a.id || dictContains s.ended a.id) = true
  · rw [if_pos h1]
    exact hs
  · rw [if_neg h1]
    by_cases h2 : ((s.running.map (fun e => e.1) ++ s.ended.map (fun e => e.1)).any
        (fun x => decide (x.id = a.id - 1))) = true
    · rw [if_pos h2]
      have h1f : (dictContains s.running a.id || dictContains s.ended a.id) = false := by
        cases hb : (dictContains s.running a.id || dictContains s.ended a.id)
        · rfl
        · exact absurd hb h1
      have hrun : dictContains s.running a.id = false := (Bool.or_eq_false_iff.mp h1f).1
      rw [dictSet_eq_append s.running a (t, 0) hrun]
      have hpred : presentB s (a.id - 1) = true := by
        obtain ⟨x, hx, hxid⟩ := List.any_eq_true.mp h2
        simp only [decide_eq_true_eq] at hxid
        rcases List.mem_append.mp hx with hx2 | hx2
        · obtain ⟨e, he, rfl⟩ := List.mem_map.mp hx2
          have hc : dictContains s.running e.1.id = true :=
            (dictContains_eq_true_iff _ _).mpr ⟨e, he, rfl⟩
          unfold presentB
          rw [← hxid, hc, Bool.true_or]
        · obtain ⟨e, he, rfl⟩ := List.mem_map.mp hx2
          have hc : dictContains s.ended e.1.id = true :=
            (dictContains_eq_true_iff _ _).mpr ⟨e, he, rfl⟩
          unfold presentB
          rw [← hxid, hc, Bool.or_true]
      have hpres : ∀ j : Int, presentB ⟨s.running ++ [(a, (t, 0))], s.ended⟩ j
          = (presentB s j || decide (a.id = j)) := by
        intro j
        unfold presentB
        show (dictContains (s.running ++ [(a, (t, 0))]) j || dictContains s.ended j) = _
        rw [dictContains_append, dictContains_singleton]
        cases dictContains s.running j <;> cases dictContains s.ended j <;>
          cases decide (a.id = j) <;> rfl
      intro i hpi hgt
      rw [hpres] at hpi
      rw [hpres]
      rw [Bool.or_eq_true] at hpi
      rcases hpi with hpi2 | hpi2
      · rw [hs i hpi2 hgt, Bool.true_or]
      · simp only [decide_eq_true_eq] at hpi2
        rw [← hpi2, hpred, Bool.true_or]
    · rw [if_neg h2]
      exact hs

theorem depInvP_nextStates (apps : List App) :
    ∀ (s : Spark) (t : Int), depInvP s → ∀ s1 ∈ nextStates apps s t, depInvP s1 := by
  induction apps with
  | nil =>
    intro s t hs s1 h1
    rw [show nextStates [] s t = [s] from rfl] at h1
    rcases List.mem_singleton.mp h1 with rfl
    exact hs
  | cons a rest ih =>
    intro s t hs s1 h1
    rw [show nextStates (a :: rest) s t
      = setUnion (nextStates rest (s.schedule a t) t) (nextStates rest s t) from rfl] at h1
    rcases (mem_setUnion_iff _ _ s1).mp h1 with h1 | h1
    · exact ih (s.schedule a t) t (depInvP_schedule s a t hs) s1 h1
    · exact ih s t hs s1 h1

theorem depInvP_simTickAux (apps : List App) (t : Int) :
    ∀ (states : List Spark) (sch : Sched) (acc : List Spark) (sch1 : Sched)
      (out : List Spark), simTickAux apps t sch acc states = some (sch1, out) →
      (∀ s ∈ acc, depInvP s) → (∀ s ∈ states, depInvP s) →
      ∀ s ∈ out, depInvP s := by
  intro states
  induction states with
  | nil =>
    intro sch acc sch1 out h hacc _
    simp only [simTickAux] at h
    obtain ⟨-, rfl⟩ : sch = sch1 ∧ acc = out := by
      simpa [Prod.ext_iff] using Option.some.inj h
    exact hacc
  | cons st rest ih =>
    intro sch acc sch1 out h hacc hstates
    simp only [simTickAux] at h
    cases ht : Spark.tick sch st t with
    | none => rw [ht] at h; cases h
    | some pr =>
      rw [ht] at h
      obtain ⟨sch2, st1⟩ := pr
      dsimp only at h
      have hst1 : depInvP st1 := by
        intro i hp hgt
        rw [tick_presentB sch st t sch2 st1 ht i] at hp
        rw [tick_presentB sch st t sch2 st1 ht (i - 1)]
        exact hstates st (List.mem_cons_self st rest) i hp hgt
      refine ih sch2 _ sch1 out h ?_ (fun s hs => hstates s (List.mem_cons_of_mem st hs))
      intro s hs
      rcases (mem_setUnion_iff acc _ s).mp hs with hs | hs
      · exact hacc s hs
      · exact depInvP_nextStates apps st1 t hst1 s hs

/-- C6: in every state reachable by `simulate` from a seed satisfying the
dependency-order invariant, every present id greater than 1 has its
predecessor id present in the same state: `schedule`, `tick` and the
branching step all preserve the invariant. -/
theorem scheduling_dep_invariant (sch : Sched) (seed : Spark) (apps : List App)
    (steps : Nat) (sch1 : Sched) (states : List Spark)
    (hseed : depInvP seed)
    (hsim : simulate sch seed apps steps = some (sch1, states)) :
    ∀ s ∈ states, depInvP s := by
  unfold simulate at hsim
  refine foldlM_option_invariant
    (fun (p : Sched × List Spark) t => simTickAux apps (Int.ofNat t) p.1 [] p.2)
    (fun p => ∀ s ∈ p.2, depInvP s) ?_ (List.range (steps + 1)) (sch, [seed])
    (sch1, states) ?_ hsim
  · intro p b p1 hp hstep
    exact depInvP_simTickAux apps (Int.ofNat b) p.2 p.1 [] p1.1 p1.2 hstep
      (by intro s hs; cases hs) hp
  · intro s hs
    rcases List.mem_singleton.mp hs with rfl
    exact hseed

/-- C6 (witness): exploring one tick from a seed with job 1 running yields a
state in which job 2 is running and job 1 ended, and that state satisfies
the dependency-order invariant. -/
theorem scheduling_dep_invariant_witness :
    depInvP ⟨[(jobB2, (0, 0))], [(jobB1, (1, 0))]⟩ := by
  refine scheduling_dep_invariant Sched.Fair ⟨[(jobB1, (1, 0))], []⟩ [jobB1, jobB2] 0
    Sched.Fair [⟨[(jobB2, (0, 0))], [(jobB1, (1, 0))]⟩, ⟨[], [(jobB1, (1, 0))]⟩] ?_
    (by with_unfolding_all decide) _ (by decide)
  intro i hp hgt
  simp only [presentB, dictContains, dictLookup, jobB1] at hp
  by_cases h1 : (1 : Int) = i
  · exfalso
    rw [← h1] at hgt
    exact lt_irrefl 1 hgt
  · rw [if_neg h1] at hp
    cases hp
